import Mathlib

/-!
Shallow embedding of the algorithmic core of `manual_data_cleaner`.

* `src/inside_curve.rs`: `on_segment`, `orientation`, `do_intersect`,
  `check_inside_curve` (ray casting with a `u8` crossing counter).
* `src/app.rs`: the sample data model (`DataPoint`, `TimeSeries`), the
  exclusion of masked samples (`exclude_timeseries_data`, `exclude_data`)
  and the interval-consolidation sweep of `export_exclusions`.

The `f64` coordinates of the source are modelled as exact arithmetic in an
arbitrary linearly ordered commutative ring `α` (the intended instance is
`ℚ`; concrete evaluations use `ℤ`): the source computes only `+`, `-`, `*`,
comparisons, `min` and `max` on coordinates.  Timestamps
(`chrono::NaiveDateTime` with minute-granularity `Duration` arithmetic) are
modelled as integers.  The `u8` crossing counter wraps modulo 256, which
the embedding makes explicit.  Rust panics (indexing an empty curve) are
modelled with `Option`.
-/

set_option linter.unusedSectionVars false

namespace MDC

variable {α : Type} [LinearOrderedCommRing α]

/-- `pub type Point = [f64; 2]`. -/
abbrev Point (α : Type) := α × α

/-- `fn on_segment(p, q, r)` from `src/inside_curve.rs`: `q` lies in the
closed bounding box spanned by `p` and `r`. -/
def on_segment (p q r : Point α) : Bool :=
  decide (q.1 ≤ max p.1 r.1) && decide (min p.1 r.1 ≤ q.1) &&
  decide (q.2 ≤ max p.2 r.2) && decide (min p.2 r.2 ≤ q.2)

inductive Orientation where
  | Colinear
  | Clockwise
  | Counterclockwise
deriving DecidableEq, Fintype

/-- The cross-product value computed inside `fn orientation`. -/
def orient_val (p q r : Point α) : α :=
  (q.2 - p.2) * (r.1 - q.1) - (q.1 - p.1) * (r.2 - q.2)

/-- `fn orientation(p, q, r)` from `src/inside_curve.rs`. -/
def orientation (p q r : Point α) : Orientation :=
  if 0 < orient_val p q r then Orientation.Clockwise
  else if orient_val p q r < 0 then Orientation.Counterclockwise
  else Orientation.Colinear

/-- The body of `fn do_intersect` as a function of the four orientation
values and the four `on_segment` tests it performs. -/
def intersect_cases (o1 o2 o3 o4 : Orientation) (s1 s2 s3 s4 : Bool) : Bool :=
  if o1 ≠ o2 ∧ o3 ≠ o4 then true
  else
    (decide (o1 = Orientation.Colinear) && s1) ||
    (decide (o2 = Orientation.Colinear) && s2) ||
    (decide (o3 = Orientation.Colinear) && s3) ||
    (decide (o4 = Orientation.Colinear) && s4)

/-- `fn do_intersect(p1, q1, p2, q2)` from `src/inside_curve.rs`. -/
def do_intersect (p1 q1 p2 q2 : Point α) : Bool :=
  intersect_cases
    (orientation p1 q1 p2) (orientation p1 q1 q2)
    (orientation p2 q2 p1) (orientation p2 q2 q1)
    (on_segment p1 p2 q1) (on_segment p1 q2 q1)
    (on_segment p2 p1 q2) (on_segment p2 q1 q2)

/-- The fixed reference point `let outside = [-100.0, -100.0]`. -/
def outside : Point α := (-100, -100)

/-- The edges `curve.windows(2).chain(once(&close_loop))`: all consecutive
point pairs plus the closing edge from the last point back to the first.
On the empty curve (where the Rust code would already have panicked on
`curve[0]`) this is the empty list. -/
def closedEdges (curve : List (Point α)) : List (Point α × Point α) :=
  curve.zip curve.tail ++
    (match curve.getLast?, curve.head? with
     | some lst, some fst => [(lst, fst)]
     | _, _ => [])

/-- The exact number of closed-curve edges intersecting the ray segment
from `outside` to `p` (the mathematical count, before `u8` truncation). -/
def true_crossings (curve : List (Point α)) (p : Point α) : ℕ :=
  (closedEdges curve).countP (fun s => do_intersect outside p s.1 s.2)

/-- `n_crossings`: the Rust code sums `do_intersect ... as u8` into a `u8`,
so the accumulated value is the true count reduced modulo 256 (wrapping
semantics). -/
def n_crossings (curve : List (Point α)) (p : Point α) : ℕ :=
  ((closedEdges curve).map
    (fun s => if do_intersect outside p s.1 s.2 then 1 else 0)).sum % 256

/-- The per-point classification `n_crossings % 2 == 1`. -/
def inside_one (curve : List (Point α)) (p : Point α) : Bool :=
  n_crossings curve p % 2 == 1

/-- `pub fn check_inside_curve(curve, data)` from `src/inside_curve.rs`.
`none` models the panic of `curve[0]` on an empty curve. -/
def check_inside_curve (curve data : List (Point α)) : Option (List Bool) :=
  if curve.isEmpty then none
  else some (data.map (fun p => inside_one curve p))

/-- Exchanging Clockwise and Counterclockwise. -/
def flipO : Orientation → Orientation
  | Orientation.Colinear => Orientation.Colinear
  | Orientation.Clockwise => Orientation.Counterclockwise
  | Orientation.Counterclockwise => Orientation.Clockwise

theorem orient_val_swap (p q r : Point α) : orient_val q p r = -orient_val p q r := by
  unfold orient_val; ring

theorem orientation_swap (p q r : Point α) :
    orientation q p r = flipO (orientation p q r) := by
  unfold orientation
  rw [orient_val_swap]
  rcases lt_trichotomy (orient_val p q r) 0 with h | h | h
  · rw [if_pos (by linarith), if_neg (by linarith), if_pos h]; rfl
  · rw [h]; norm_num [flipO]
  · rw [if_neg (by linarith), if_pos (by linarith), if_pos h]; rfl

theorem on_segment_symm (p q r : Point α) : on_segment p q r = on_segment r q p := by
  unfold on_segment
  rw [max_comm p.1 r.1, min_comm p.1 r.1, max_comm p.2 r.2, min_comm p.2 r.2]

theorem intersect_cases_symm (o1 o2 o3 o4 : Orientation) (s1 s2 s3 s4 : Bool) :
    intersect_cases o1 o2 o3 o4 s1 s2 s3 s4 = intersect_cases o3 o4 o1 o2 s3 s4 s1 s2 := by
  revert o1 o2 o3 o4 s1 s2 s3 s4; decide

theorem intersect_cases_flip (o1 o2 o3 o4 : Orientation) (s1 s2 s3 s4 : Bool) :
    intersect_cases o1 o2 o3 o4 s1 s2 s3 s4
      = intersect_cases o2 o1 (flipO o3) (flipO o4) s2 s1 s3 s4 := by
  revert o1 o2 o3 o4 s1 s2 s3 s4; decide

/-- C9: `do_intersect` is symmetric in its two segment arguments:
`do_intersect(a, b, c, d) = do_intersect(c, d, a, b)` for all points. -/
theorem do_intersect_symm (a b c d : Point α) :
    do_intersect a b c d = do_intersect c d a b :=
  intersect_cases_symm (orientation a b c) (orientation a b d)
    (orientation c d a) (orientation c d b)
    (on_segment a c b) (on_segment a d b) (on_segment c a d) (on_segment c b d)

/-- Swapping the endpoints of the second segment does not change
`do_intersect` (exact arithmetic). -/
theorem do_intersect_swap2 (p q a b : Point α) :
    do_intersect p q a b = do_intersect p q b a := by
  show intersect_cases (orientation p q a) (orientation p q b)
      (orientation a b p) (orientation a b q)
      (on_segment p a q) (on_segment p b q) (on_segment a p b) (on_segment a q b)
    = intersect_cases (orientation p q b) (orientation p q a)
      (orientation b a p) (orientation b a q)
      (on_segment p b q) (on_segment p a q) (on_segment b p a) (on_segment b q a)
  rw [orientation_swap a b p, orientation_swap a b q, on_segment_symm b p a,
    on_segment_symm b q a]
  exact intersect_cases_flip _ _ _ _ _ _ _ _

theorem sum_map_ite_eq_countP {β : Type} (l : List β) (p : β → Bool) :
    (l.map (fun a => if p a then 1 else 0)).sum = l.countP p := by
  induction l with
  | nil => rfl
  | cons a t ih =>
    by_cases h : p a <;> simp [h, ih, List.countP_cons]
    omega

theorem n_crossings_eq (curve : List (Point α)) (p : Point α) :
    n_crossings curve p = true_crossings curve p % 256 := by
  unfold n_crossings true_crossings
  rw [sum_map_ite_eq_countP]

theorem inside_one_odd (curve : List (Point α)) (p : Point α) :
    inside_one curve p = true ↔ Odd (true_crossings curve p) := by
  unfold inside_one
  rw [n_crossings_eq, Nat.mod_mod_of_dvd _ (by norm_num : (2:ℕ) ∣ 256)]
  simp [Nat.odd_iff]

/-- C10: the crossing counter is accumulated in a `u8`, so it holds the
true crossing count reduced modulo 256 (wrapping semantics); since 256 is
even, the parity test `% 2 == 1` still computes the parity of the true
crossing count. -/
theorem crossings_u8_wrap (curve : List (Point α)) (p : Point α) :
    n_crossings curve p = true_crossings curve p % 256 ∧
    (inside_one curve p = true ↔ Odd (true_crossings curve p)) :=
  ⟨n_crossings_eq curve p, inside_one_odd curve p⟩

/-- C1: for a curve of at least 3 points, `check_inside_curve` returns a
boolean list of the same length and order as the query list, whose `i`-th
entry is true iff the number of closed-curve edges (consecutive pairs plus
the closing edge) intersecting the segment from the reference point
`(-100, -100)` to the `i`-th query point, as decided by `do_intersect`, is
odd. -/
theorem check_inside_spec (curve data : List (Point α)) (h3 : 3 ≤ curve.length) :
    ∃ res, check_inside_curve curve data = some res ∧ res.length = data.length ∧
      ∀ i, i < data.length → (res.getD i false = true ↔
        Odd ((closedEdges curve).countP
          (fun s => do_intersect outside (data.getD i (0, 0)) s.1 s.2))) := by
  have hne : curve.isEmpty = false := by
    cases curve with
    | nil => simp at h3
    | cons a t => rfl
  refine ⟨data.map (fun p => inside_one curve p), ?_, by simp, ?_⟩
  · unfold check_inside_curve
    rw [hne]
    rfl
  · intro i hi
    have hget : (data.map (fun p => inside_one curve p)).getD i false
        = inside_one curve (data.getD i (0, 0)) := by
      simp only [List.getD_eq_getElem?_getD, List.getElem?_map,
        List.getElem?_eq_getElem hi, Option.map_some]
      rfl
    rw [hget]
    exact inside_one_odd curve _

theorem check_inside_spec_witness :
    ∃ res, check_inside_curve [((0:ℤ), 0), (4, 0), (2, 4)] [((2:ℤ), 1), (5, 5)] = some res ∧
      res.length = ([((2:ℤ), 1), (5, 5)] : List (Point ℤ)).length ∧
      ∀ i, i < ([((2:ℤ), 1), (5, 5)] : List (Point ℤ)).length → (res.getD i false = true ↔
        Odd ((closedEdges [((0:ℤ), 0), (4, 0), (2, 4)]).countP
          (fun s => do_intersect outside ([((2:ℤ), 1), (5, 5)].getD i (0, 0)) s.1 s.2))) :=
  check_inside_spec _ _ (by decide)

theorem orientation_self_left (p r : Point α) : orientation p p r = Orientation.Colinear := by
  have h : orient_val p p r = 0 := by unfold orient_val; ring
  unfold orientation
  rw [h]
  norm_num

theorem orientation_ends_left (p q : Point α) : orientation p q p = Orientation.Colinear := by
  have h : orient_val p q p = 0 := by unfold orient_val; ring
  unfold orientation
  rw [h]
  norm_num

theorem orientation_ends_right (p q : Point α) : orientation p q q = Orientation.Colinear := by
  have h : orient_val p q q = 0 := by unfold orient_val; ring
  unfold orientation
  rw [h]
  norm_num

theorem on_segment_self_outer (p q : Point α) : on_segment p q p = true ↔ q = p := by
  unfold on_segment
  simp only [max_self, min_self, Bool.and_eq_true, decide_eq_true_eq]
  constructor
  · rintro ⟨⟨⟨h1, h2⟩, h3⟩, h4⟩
    exact Prod.ext (le_antisymm h1 h2) (le_antisymm h3 h4)
  · rintro rfl
    simp

theorem on_segment_left (p b : Point α) : on_segment p p b = true := by
  unfold on_segment
  simp [le_max_left, min_le_left]

theorem on_segment_right (a p : Point α) : on_segment a p p = true := by
  unfold on_segment
  simp [le_max_right, min_le_right]

/-- The closed segment from `a` to `b` passes exactly through `r`, phrased
with the primitives of the source (exact collinearity plus bounding box). -/
def passes_through (a b r : Point α) : Bool :=
  decide (orientation a b r = Orientation.Colinear) && on_segment a r b

theorem do_intersect_degenerate (a b : Point α)
    (h : passes_through a b (outside : Point α) = false) :
    do_intersect (outside : Point α) outside a b = false := by
  show intersect_cases (orientation outside outside a) (orientation outside outside b)
      (orientation a b outside) (orientation a b outside)
      (on_segment outside a outside) (on_segment outside b outside)
      (on_segment a outside b) (on_segment a outside b) = false
  rw [orientation_self_left, orientation_self_left]
  by_cases h1 : on_segment (outside : Point α) a outside = true
  · exfalso
    have ha : a = outside := (on_segment_self_outer (outside : Point α) a).mp h1
    rw [ha] at h
    unfold passes_through at h
    rw [orientation_ends_left, on_segment_left] at h
    simp at h
  by_cases h2 : on_segment (outside : Point α) b outside = true
  · exfalso
    have hb : b = outside := (on_segment_self_outer (outside : Point α) b).mp h2
    rw [hb] at h
    unfold passes_through at h
    rw [orientation_ends_right, on_segment_right] at h
    simp at h
  unfold passes_through at h
  rw [Bool.not_eq_true] at h1 h2
  unfold intersect_cases
  rw [if_neg (by simp)]
  simp only [h1, h2, Bool.and_false, Bool.false_or, decide_True, Bool.true_and]
  rw [Bool.and_eq_false_iff] at h
  rcases h with h | h
  · simp [h]
  · simp [h]

/-- C4: if no closed-curve edge passes through the reference point
`(-100, -100)`, then the sentinel query point `(-100, -100)` (substituted
for any sample pair that is not both Valid) crosses zero edges, and
`check_inside_curve` classifies it as not inside. -/
theorem sentinel_not_inside (curve : List (Point α)) (hne : curve ≠ [])
    (h : ∀ e ∈ closedEdges curve, passes_through e.1 e.2 (outside : Point α) = false) :
    true_crossings curve (outside : Point α) = 0 ∧
    check_inside_curve curve [(outside : Point α)] = some [false] := by
  have hzero : true_crossings curve (outside : Point α) = 0 := by
    unfold true_crossings
    rw [List.countP_eq_zero]
    intro e he
    rw [do_intersect_degenerate e.1 e.2 (h e he)]
    simp
  refine ⟨hzero, ?_⟩
  have hins : inside_one curve (outside : Point α) = false := by
    rw [Bool.eq_false_iff, Ne, inside_one_odd, hzero]
    simp
  have hemp : curve.isEmpty = false := by
    cases curve with
    | nil => exact absurd rfl hne
    | cons x t => rfl
  unfold check_inside_curve
  rw [hemp]
  simp [hins]

theorem sentinel_not_inside_witness :
    true_crossings [((0:ℤ), 0), (4, 0), (2, 4)] (outside : Point ℤ) = 0 ∧
    check_inside_curve [((0:ℤ), 0), (4, 0), (2, 4)] [(outside : Point ℤ)] = some [false] :=
  sentinel_not_inside _ (by decide) (by decide)

theorem zip_tail_concat {β : Type} (l : List β) (x : β) :
    (l ++ [x]).zip (l ++ [x]).tail
      = l.zip l.tail ++ (match l.getLast? with
        | some z => [(z, x)]
        | none => []) := by
  induction l with
  | nil => rfl
  | cons a t ih =>
    cases t with
    | nil => rfl
    | cons b t2 =>
      simp only [List.cons_append, List.zip_cons_cons, List.tail_cons] at ih ⊢
      rw [ih, List.getLast?_cons_cons]

theorem zip_tail_reverse {β : Type} (l : List β) :
    l.reverse.zip l.reverse.tail = ((l.zip l.tail).map Prod.swap).reverse := by
  induction l with
  | nil => rfl
  | cons a t ih =>
    rw [List.reverse_cons, zip_tail_concat, ih, List.getLast?_reverse]
    cases t with
    | nil => rfl
    | cons b t2 =>
      simp [List.zip_cons_cons]

theorem true_crossings_reverse (curve : List (Point α)) (p : Point α) :
    true_crossings curve.reverse p = true_crossings curve p := by
  cases hlst : curve.getLast? with
  | none =>
    rw [List.getLast?_eq_none_iff] at hlst
    rw [hlst]
    rfl
  | some lst =>
    have hne : curve ≠ [] := by
      intro hc
      rw [hc] at hlst
      simp at hlst
    obtain ⟨a, t, rfl⟩ : ∃ a t, curve = a :: t := by
      cases curve with
      | nil => exact absurd rfl hne
      | cons a t => exact ⟨a, t, rfl⟩
    unfold true_crossings closedEdges
    rw [List.head?_reverse, List.getLast?_reverse, hlst, List.head?_cons, zip_tail_reverse]
    rw [List.countP_append, List.countP_append]
    have hrev := (List.reverse_perm
      (((a :: t).zip (a :: t).tail).map Prod.swap)).countP_eq
      (fun s => do_intersect outside p s.1 s.2)
    rw [hrev, List.countP_map]
    have hswap : ((fun s : Point α × Point α => do_intersect outside p s.1 s.2) ∘ Prod.swap)
        = fun s : Point α × Point α => do_intersect outside p s.1 s.2 := by
      funext s
      show do_intersect outside p s.2 s.1 = do_intersect outside p s.1 s.2
      rw [do_intersect_swap2]
    rw [hswap]
    have hclose : List.countP (fun s : Point α × Point α => do_intersect outside p s.1 s.2)
          [(a, lst)]
        = List.countP (fun s : Point α × Point α => do_intersect outside p s.1 s.2)
          [(lst, a)] := by
      simp only [List.countP_cons, List.countP_nil]
      rw [do_intersect_swap2]
    rw [hclose]

theorem inside_one_reverse (curve : List (Point α)) (p : Point α) :
    inside_one curve.reverse p = inside_one curve p := by
  unfold inside_one
  rw [n_crossings_eq, n_crossings_eq, true_crossings_reverse]

/-- C8: reversing the curve's point order (opposite winding direction)
yields the same classification for every query point. -/
theorem check_inside_reverse (curve data : List (Point α)) :
    check_inside_curve curve.reverse data = check_inside_curve curve data := by
  unfold check_inside_curve
  have he : curve.reverse.isEmpty = curve.isEmpty := by
    cases curve with
    | nil => rfl
    | cons a t => simp
  rw [he]
  by_cases hc : curve.isEmpty
  · rw [if_pos hc, if_pos hc]
  · rw [if_neg hc, if_neg hc]
    have hf : (fun p : Point α => inside_one curve.reverse p)
        = fun p : Point α => inside_one curve p :=
      funext fun p => inside_one_reverse curve p
    rw [hf]

/-- `enum DataPoint` from `src/app.rs` (`NaN` is the missing-sample case). -/
inductive DataPoint (α : Type) where
  | Valid (x : α)
  | NaN
  | Excluded (x : α) (reason : String)
deriving DecidableEq

/-- `struct TimeSeries` from `src/app.rs`. -/
structure TimeSeries (α : Type) where
  name : String
  data : List (DataPoint α)
deriving DecidableEq

/-- The fields of `struct ManualDataCleanerApp` that the exclusion logic
reads or writes (file-loading and plotting fields are presentation glue
and are omitted). -/
structure App (α : Type) where
  msg : String
  xaxis : ℕ
  yaxis : ℕ
  excludex : Bool
  excludey : Bool
  timeseries : List (TimeSeries α)
  reason : String
  exclusion_names : List String
  exclusion_curve : List (Point α)
  exclusion_curve_is_closed : Bool
deriving DecidableEq

/-- The match inside `convert_points`: a pair of Valid samples keeps its
values, anything else degrades to the sentinel `(-100, -100)`. -/
def convert_point : DataPoint α → DataPoint α → Point α
  | DataPoint.Valid x, DataPoint.Valid y => (x, y)
  | _, _ => (-100, -100)

/-- `fn convert_points` from `src/app.rs`: zip of the selected x- and
y-axis series (an out-of-range axis, which would panic in Rust, is
modelled by the empty series). -/
def convert_points (app : App α) : List (Point α) :=
  List.zipWith convert_point (app.timeseries.getD app.xaxis ⟨"", []⟩).data
    (app.timeseries.getD app.yaxis ⟨"", []⟩).data

/-- The per-sample update of `exclude_timeseries_data`: a Valid sample
whose mask entry is true becomes Excluded with the current reason;
everything else is unchanged. -/
def apply_exclusion (reason : String) : DataPoint α → Bool → DataPoint α
  | DataPoint.Valid v, true => DataPoint.Excluded v reason
  | val, _ => val

/-- The effect of `fn exclude_timeseries_data` on one series' data:
`iter_mut().zip(mask)` rewrites only the zipped prefix and leaves the
rest of the series untouched. -/
def exclude_mask (reason : String) (data : List (DataPoint α)) (mask : List Bool) :
    List (DataPoint α) :=
  List.zipWith (apply_exclusion reason) data mask ++ data.drop mask.length

/-- `fn exclude_timeseries_data` from `src/app.rs`. -/
def exclude_timeseries_data (app : App α) (axis : ℕ) (mask : List Bool) : App α :=
  { app with
    timeseries :=
      app.timeseries.modify (fun ts => ⟨ts.name, exclude_mask app.reason ts.data mask⟩) axis }

/-- `fn exclude_data` from `src/app.rs`.  The three guard branches only set
`msg`; the final branch classifies and applies the exclusion.  The
`getD []` is never exercised: the guarded curve has at least 3 points, so
`check_inside_curve` returns `some`. -/
def exclude_data (app : App α) : App α :=
  if app.reason = "" then
    { app with msg := "Write a reason for exclusion" }
  else if app.exclusion_curve.length < 3 then
    { app with msg := "At least 3 points are needed to define an exclusion area" }
  else if app.exclusion_curve_is_closed = false then
    { app with msg := "The exclusion area must be closed" }
  else
    let is_inside := (check_inside_curve app.exclusion_curve (convert_points app)).getD []
    let app1 :=
      if app.exclusion_names.contains app.reason then app
      else { app with exclusion_names := app.exclusion_names ++ [app.reason] }
    let app2 :=
      if app1.excludex then exclude_timeseries_data app1 app1.xaxis is_inside else app1
    let app3 :=
      if app2.excludey then exclude_timeseries_data app2 app2.yaxis is_inside else app2
    { app3 with
      exclusion_curve := [],
      exclusion_curve_is_closed := false,
      msg := "Data excluded by '" ++ app.reason ++ "' reason" }

theorem apply_exclusion_false (reason : String) (x : DataPoint α) :
    apply_exclusion reason x false = x := by
  cases x <;> rfl

theorem exclude_mask_getD (reason : String) (data : List (DataPoint α))
    (mask : List Bool) (i : ℕ) :
    (exclude_mask reason data mask).getD i DataPoint.NaN
      = apply_exclusion reason (data.getD i DataPoint.NaN) (mask.getD i false) := by
  induction data generalizing mask i with
  | nil =>
    have h0 : exclude_mask reason ([] : List (DataPoint α)) mask = [] := by
      simp [exclude_mask]
    have h1 : (([] : List (DataPoint α)).getD i DataPoint.NaN) = DataPoint.NaN := by simp
    rw [h0, h1]
    cases hb : mask.getD i false
    · rw [apply_exclusion_false]
    · rfl
  | cons d ds ih =>
    cases mask with
    | nil =>
      have h0 : exclude_mask reason (d :: ds) ([] : List Bool) = d :: ds := by
        simp [exclude_mask]
      have h1 : (([] : List Bool).getD i false) = false := by simp
      rw [h0, h1, apply_exclusion_false]
    | cons m ms =>
      have h0 : exclude_mask reason (d :: ds) (m :: ms)
          = apply_exclusion reason d m :: exclude_mask reason ds ms := by
        simp [exclude_mask]
      rw [h0]
      cases i with
      | zero => rfl
      | succ n =>
        rw [List.getD_cons_succ, List.getD_cons_succ, List.getD_cons_succ]
        exact ih ms n

/-- C6: applying an exclusion mask to a series changes exactly the Valid
samples whose mask entry is true — each becomes Excluded with the recorded
reason, preserving its numeric value — while Missing (NaN) samples,
already-Excluded samples, and samples whose mask entry is false (or absent)
are left unchanged; a sample thus only transitions Valid to Excluded. -/
theorem exclude_mask_frame (reason : String) (data : List (DataPoint α)) (mask : List Bool) :
    (exclude_mask reason data mask).length = data.length ∧
    (∀ i v, data.getD i DataPoint.NaN = DataPoint.Valid v → mask.getD i false = true →
      (exclude_mask reason data mask).getD i DataPoint.NaN = DataPoint.Excluded v reason) ∧
    (∀ i, mask.getD i false = false →
      (exclude_mask reason data mask).getD i DataPoint.NaN = data.getD i DataPoint.NaN) ∧
    (∀ i, data.getD i DataPoint.NaN = DataPoint.NaN →
      (exclude_mask reason data mask).getD i DataPoint.NaN = data.getD i DataPoint.NaN) ∧
    (∀ i v r, data.getD i DataPoint.NaN = DataPoint.Excluded v r →
      (exclude_mask reason data mask).getD i DataPoint.NaN = data.getD i DataPoint.NaN) := by
  refine ⟨?_, ?_, ?_, ?_, ?_⟩
  · unfold exclude_mask
    rw [List.length_append, List.length_zipWith, List.length_drop]
    omega
  · intro i v hv hm
    rw [exclude_mask_getD, hv, hm]
    rfl
  · intro i hm
    rw [exclude_mask_getD, hm, apply_exclusion_false]
  · intro i hd
    rw [exclude_mask_getD, hd]
    cases hb : mask.getD i false <;> rfl
  · intro i v r hd
    rw [exclude_mask_getD, hd]
    cases hb : mask.getD i false <;> rfl

theorem exclude_mask_frame_witness :
    (exclude_mask "r" [DataPoint.Valid (1:ℤ), DataPoint.NaN] [true, true]).getD 0 DataPoint.NaN
      = DataPoint.Excluded 1 "r" :=
  (exclude_mask_frame "r" [DataPoint.Valid (1:ℤ), DataPoint.NaN] [true, true]).2.1 0 1 rfl rfl

/-- C7: when `exclude_data` is invoked with a violated precondition (empty
exclusion reason, curve with fewer than 3 points, or curve not marked
closed), it is rejected before classification and mutates no sample: the
series, the recorded exclusion names and the curve state are exactly as
before the call (only the message field is set). -/
theorem exclude_data_reject (app : App α)
    (h : app.reason = "" ∨ app.exclusion_curve.length < 3 ∨
      app.exclusion_curve_is_closed = false) :
    (exclude_data app).timeseries = app.timeseries ∧
    (exclude_data app).exclusion_names = app.exclusion_names ∧
    (exclude_data app).exclusion_curve = app.exclusion_curve ∧
    (exclude_data app).exclusion_curve_is_closed = app.exclusion_curve_is_closed := by
  unfold exclude_data
  by_cases h1 : app.reason = ""
  · rw [if_pos h1]
    exact ⟨rfl, rfl, rfl, rfl⟩
  · rw [if_neg h1]
    by_cases h2 : app.exclusion_curve.length < 3
    · rw [if_pos h2]
      exact ⟨rfl, rfl, rfl, rfl⟩
    · rw [if_neg h2]
      by_cases h3 : app.exclusion_curve_is_closed = false
      · rw [if_pos h3]
        exact ⟨rfl, rfl, rfl, rfl⟩
      · rcases h with h | h | h
        · exact absurd h h1
        · exact absurd h h2
        · exact absurd h h3

theorem exclude_data_reject_witness :
    (exclude_data (⟨"", 0, 0, true, true, [⟨"m~s", [DataPoint.Valid (1:ℤ)]⟩], "", [], [],
        false⟩ : App ℤ)).timeseries
      = (⟨"", 0, 0, true, true, [⟨"m~s", [DataPoint.Valid (1:ℤ)]⟩], "", [], [],
        false⟩ : App ℤ).timeseries ∧
    (exclude_data (⟨"", 0, 0, true, true, [⟨"m~s", [DataPoint.Valid (1:ℤ)]⟩], "", [], [],
        false⟩ : App ℤ)).exclusion_names
      = (⟨"", 0, 0, true, true, [⟨"m~s", [DataPoint.Valid (1:ℤ)]⟩], "", [], [],
        false⟩ : App ℤ).exclusion_names ∧
    (exclude_data (⟨"", 0, 0, true, true, [⟨"m~s", [DataPoint.Valid (1:ℤ)]⟩], "", [], [],
        false⟩ : App ℤ)).exclusion_curve
      = (⟨"", 0, 0, true, true, [⟨"m~s", [DataPoint.Valid (1:ℤ)]⟩], "", [], [],
        false⟩ : App ℤ).exclusion_curve ∧
    (exclude_data (⟨"", 0, 0, true, true, [⟨"m~s", [DataPoint.Valid (1:ℤ)]⟩], "", [], [],
        false⟩ : App ℤ)).exclusion_curve_is_closed
      = (⟨"", 0, 0, true, true, [⟨"m~s", [DataPoint.Valid (1:ℤ)]⟩], "", [], [],
        false⟩ : App ℤ).exclusion_curve_is_closed :=
  exclude_data_reject _ (Or.inl rfl)

/-- The sweep loop of `fn export_exclusions` (`src/app.rs`): the running
interval is `cur`; a subsequent interval `(s, e)` merges when
`s ≤ current_end` (setting `current_end = current_end.max(end)`),
otherwise the running interval is emitted and `(s, e)` takes over; the
final running interval is emitted after the loop. -/
def sweepLoop (cur : ℤ × ℤ) : List (ℤ × ℤ) → List (ℤ × ℤ)
  | [] => [cur]
  | (s, e) :: rest =>
    if s ≤ cur.2 then sweepLoop (cur.1, max cur.2 e) rest
    else cur :: sweepLoop (s, e) rest

/-- `ranges.sort_by_key(|(start, _)| *start)`: stable sort by start time. -/
def sortRanges (rs : List (ℤ × ℤ)) : List (ℤ × ℤ) :=
  rs.mergeSort (fun r1 r2 => decide (r1.1 ≤ r2.1))

/-- The per-group consolidation of `fn export_exclusions`: sort the
group's buffered intervals by start, then sweep.  A group is created only
when it receives an interval, so the `[]` case is never exercised (the
Rust code indexes `ranges[0]`). -/
def mergeGroup (rs : List (ℤ × ℤ)) : List (ℤ × ℤ) :=
  match sortRanges rs with
  | [] => []
  | r :: rest => sweepLoop r rest

/-- Buffered intervals `[t - buffer, t + buffer]` (minutes) for the
timestamps of one group, as built in `fn export_exclusions`. -/
def buffered (b : ℤ) (ts : List ℤ) : List (ℤ × ℤ) :=
  ts.map (fun t => (t - b, t + b))

/-- The consolidated output intervals for one group of exclusion
timestamps. -/
def consolidateGroup (b : ℤ) (ts : List ℤ) : List (ℤ × ℤ) :=
  mergeGroup (buffered b ts)

/-- Modelled on the spec's §4.3 description of the sweep, accumulating
emitted records explicitly: "maintain a running `(current_start,
current_end)` ...; for each subsequent interval `(s, e)` in sorted order:
if `s ≤ current_end`, merge by setting `current_end = max(current_end,
e)`; otherwise, emit `(current_start, current_end)` ... and reset the
running interval to `(s, e)`"; after the sweep, emit the final running
interval. -/
def sweepDescribed (acc : List (ℤ × ℤ)) (cur : ℤ × ℤ) : List (ℤ × ℤ) → List (ℤ × ℤ)
  | [] => acc ++ [cur]
  | (s, e) :: rest =>
    if s ≤ cur.2 then sweepDescribed acc (cur.1, max cur.2 e) rest
    else sweepDescribed (acc ++ [cur]) (s, e) rest

theorem sweepLoop_nil (cur : ℤ × ℤ) : sweepLoop cur [] = [cur] := rfl

theorem sweepLoop_cons (cur : ℤ × ℤ) (s e : ℤ) (rest : List (ℤ × ℤ)) :
    sweepLoop cur ((s, e) :: rest)
      = if s ≤ cur.2 then sweepLoop (cur.1, max cur.2 e) rest
        else cur :: sweepLoop (s, e) rest := rfl

theorem sweepDescribed_cons (acc : List (ℤ × ℤ)) (cur : ℤ × ℤ) (s e : ℤ)
    (rest : List (ℤ × ℤ)) :
    sweepDescribed acc cur ((s, e) :: rest)
      = if s ≤ cur.2 then sweepDescribed acc (cur.1, max cur.2 e) rest
        else sweepDescribed (acc ++ [cur]) (s, e) rest := rfl

theorem sweepDescribed_eq_append (l : List (ℤ × ℤ)) :
    ∀ acc cur, sweepDescribed acc cur l = acc ++ sweepLoop cur l := by
  induction l with
  | nil => intro acc cur; rfl
  | cons hd rest ih =>
    obtain ⟨s, e⟩ := hd
    intro acc cur
    rw [sweepDescribed_cons, sweepLoop_cons]
    by_cases hc : s ≤ cur.2
    · rw [if_pos hc, if_pos hc, ih]
    · rw [if_neg hc, if_neg hc, ih, List.append_assoc]
      rfl

/-- C2: the consolidation sweep implemented in `export_exclusions` is
exactly the spec's running-interval sweep — merging a subsequent interval
`(s, e)` iff `s ≤ current_end` (inclusive), taking `current_end =
max(current_end, e)`, emitting the running interval otherwise and once
more after the loop; in particular two intervals sharing an exact boundary
merge into a single record. -/
theorem sweep_matches_description :
    (∀ (first : ℤ × ℤ) (rest : List (ℤ × ℤ)),
      sweepLoop first rest = sweepDescribed [] first rest) ∧
    (∀ a b c : ℤ, sweepLoop (a, b) [(b, c)] = [(a, max b c)]) := by
  constructor
  · intro first rest
    rw [sweepDescribed_eq_append, List.nil_append]
  · intro a b c
    rw [sweepLoop_cons]
    simp [sweepLoop_nil]

/-- Ordering of intervals by start time. -/
def startLe (r1 r2 : ℤ × ℤ) : Prop := r1.1 ≤ r2.1

/-- A timestamp lies in a closed interval. -/
def inInterval (t : ℤ) (r : ℤ × ℤ) : Prop := r.1 ≤ t ∧ t ≤ r.2

instance (t : ℤ) (r : ℤ × ℤ) : Decidable (inInterval t r) :=
  inferInstanceAs (Decidable (_ ∧ _))

theorem sortRanges_sorted (rs : List (ℤ × ℤ)) :
    List.Sorted startLe (sortRanges rs) := by
  have h := @List.sorted_mergeSort (ℤ × ℤ) (fun r1 r2 => decide (r1.1 ≤ r2.1))
    (fun a b c h1 h2 => by
      simp only [decide_eq_true_eq] at h1 h2 ⊢
      exact le_trans h1 h2)
    (fun a b => by
      simp only [Bool.or_eq_true, decide_eq_true_eq]
      exact le_total a.1 b.1)
    rs
  exact h.imp (fun hab => of_decide_eq_true hab)

theorem sortRanges_perm (rs : List (ℤ × ℤ)) : (sortRanges rs).Perm rs :=
  List.mergeSort_perm rs _

theorem sweepLoop_start_le (l : List (ℤ × ℤ)) :
    ∀ cur : ℤ × ℤ, List.Sorted startLe (cur :: l) →
      ∀ out ∈ sweepLoop cur l, cur.1 ≤ out.1 := by
  induction l with
  | nil =>
    intro cur _ out hout
    rw [sweepLoop_nil, List.mem_singleton] at hout
    rw [hout]
  | cons hd rest ih =>
    obtain ⟨s, e⟩ := hd
    intro cur hs out hout
    rw [List.sorted_cons] at hs
    obtain ⟨h1, h2⟩ := hs
    rw [sweepLoop_cons] at hout
    by_cases hc : s ≤ cur.2
    · rw [if_pos hc] at hout
      exact ih (cur.1, max cur.2 e) (List.sorted_cons.mpr
        ⟨fun b hb => h1 b (List.mem_cons_of_mem _ hb), (List.sorted_cons.mp h2).2⟩) out hout
    · rw [if_neg hc] at hout
      rcases List.mem_cons.mp hout with h | h
      · rw [h]
      · exact le_trans (h1 (s, e) (List.mem_cons_self _ _)) (ih (s, e) h2 out h)

theorem sweepLoop_start_end (l : List (ℤ × ℤ)) :
    ∀ cur : ℤ × ℤ, cur.1 ≤ cur.2 → (∀ r ∈ l, r.1 ≤ r.2) →
      ∀ out ∈ sweepLoop cur l, out.1 ≤ out.2 := by
  induction l with
  | nil =>
    intro cur h0 _ out hout
    rw [sweepLoop_nil, List.mem_singleton] at hout
    rw [hout]
    exact h0
  | cons hd rest ih =>
    obtain ⟨s, e⟩ := hd
    intro cur h0 hl out hout
    rw [sweepLoop_cons] at hout
    by_cases hc : s ≤ cur.2
    · rw [if_pos hc] at hout
      exact ih (cur.1, max cur.2 e) (le_trans h0 (le_max_left _ _))
        (fun r hr => hl r (List.mem_cons_of_mem _ hr)) out hout
    · rw [if_neg hc] at hout
      rcases List.mem_cons.mp hout with h | h
      · rw [h]
        exact h0
      · exact ih (s, e) (hl (s, e) (List.mem_cons_self _ _))
          (fun r hr => hl r (List.mem_cons_of_mem _ hr)) out h

theorem sweepLoop_gap (l : List (ℤ × ℤ)) :
    ∀ cur : ℤ × ℤ, List.Sorted startLe (cur :: l) →
      (sweepLoop cur l).Pairwise (fun r1 r2 => r1.2 < r2.1) := by
  induction l with
  | nil =>
    intro cur _
    rw [sweepLoop_nil]
    exact List.pairwise_singleton _ _
  | cons hd rest ih =>
    obtain ⟨s, e⟩ := hd
    intro cur hs
    rw [List.sorted_cons] at hs
    obtain ⟨h1, h2⟩ := hs
    rw [sweepLoop_cons]
    by_cases hc : s ≤ cur.2
    · rw [if_pos hc]
      exact ih (cur.1, max cur.2 e) (List.sorted_cons.mpr
        ⟨fun b hb => h1 b (List.mem_cons_of_mem _ hb), (List.sorted_cons.mp h2).2⟩)
    · rw [if_neg hc]
      rw [List.pairwise_cons]
      refine ⟨fun out hout => ?_, ih (s, e) h2⟩
      have hsle : s ≤ out.1 := sweepLoop_start_le rest (s, e) h2 out hout
      omega

theorem sweepLoop_cover (l : List (ℤ × ℤ)) :
    ∀ cur : ℤ × ℤ, List.Sorted startLe (cur :: l) → ∀ t : ℤ,
      (inInterval t cur ∨ ∃ r ∈ l, inInterval t r) →
      ∃ out ∈ sweepLoop cur l, inInterval t out := by
  induction l with
  | nil =>
    intro cur _ t h
    rcases h with h | ⟨r, hr, _⟩
    · exact ⟨cur, by rw [sweepLoop_nil]; exact List.mem_singleton_self _, h⟩
    · exact absurd hr (List.not_mem_nil r)
  | cons hd rest ih =>
    obtain ⟨s, e⟩ := hd
    intro cur hs t h
    rw [List.sorted_cons] at hs
    obtain ⟨h1, h2⟩ := hs
    rw [sweepLoop_cons]
    by_cases hc : s ≤ cur.2
    · rw [if_pos hc]
      apply ih (cur.1, max cur.2 e) (List.sorted_cons.mpr
        ⟨fun b hb => h1 b (List.mem_cons_of_mem _ hb), (List.sorted_cons.mp h2).2⟩) t
      rcases h with h | ⟨r, hr, hin⟩
      · exact Or.inl ⟨h.1, le_trans h.2 (le_max_left _ _)⟩
      · rcases List.mem_cons.mp hr with heq | hr2
        · rw [heq] at hin
          exact Or.inl ⟨le_trans (h1 (s, e) (List.mem_cons_self _ _)) hin.1,
            le_trans hin.2 (le_max_right _ _)⟩
        · exact Or.inr ⟨r, hr2, hin⟩
    · rw [if_neg hc]
      rcases h with h | ⟨r, hr, hin⟩
      · exact ⟨cur, List.mem_cons_self _ _, h⟩
      · rcases List.mem_cons.mp hr with heq | hr2
        · obtain ⟨out, ho, hoin⟩ := ih (s, e) h2 t (Or.inl (heq ▸ hin))
          exact ⟨out, List.mem_cons_of_mem _ ho, hoin⟩
        · obtain ⟨out, ho, hoin⟩ := ih (s, e) h2 t (Or.inr ⟨r, hr2, hin⟩)
          exact ⟨out, List.mem_cons_of_mem _ ho, hoin⟩

theorem countP_le_one_of_gap (t : ℤ) (l : List (ℤ × ℤ))
    (h : l.Pairwise (fun r1 r2 => r1.2 < r2.1)) :
    l.countP (fun r => decide (inInterval t r)) ≤ 1 := by
  induction l with
  | nil => simp
  | cons hd rest ih =>
    rw [List.pairwise_cons] at h
    obtain ⟨h1, h2⟩ := h
    by_cases hin : inInterval t hd
    · rw [List.countP_cons_of_pos _ _ (by simpa using hin)]
      have hz : rest.countP (fun r => decide (inInterval t r)) = 0 := by
        rw [List.countP_eq_zero]
        intro r hr
        simp only [decide_eq_true_eq]
        intro hrin
        have := h1 r hr
        obtain ⟨_, hin2⟩ := hin
        obtain ⟨hrin1, _⟩ := hrin
        omega
      omega
    · rw [List.countP_cons_of_neg _ _ (by simpa using hin)]
      exact ih h2

theorem mergeGroup_partition (rs : List (ℤ × ℤ)) (hr : ∀ r ∈ rs, r.1 ≤ r.2) :
    (∀ out ∈ mergeGroup rs, out.1 ≤ out.2) ∧
    (mergeGroup rs).Pairwise (fun r1 r2 => ∀ t : ℤ, ¬(inInterval t r1 ∧ inInterval t r2)) ∧
    (∀ t : ℤ, (∃ r ∈ rs, inInterval t r) →
      (mergeGroup rs).countP (fun r => decide (inInterval t r)) = 1) := by
  have hperm := sortRanges_perm rs
  have hsorted := sortRanges_sorted rs
  unfold mergeGroup
  cases hS : sortRanges rs with
  | nil =>
    refine ⟨by simp, by simp, fun t ⟨r, hrmem, _⟩ => ?_⟩
    rw [hS] at hperm
    rw [← hperm.mem_iff] at hrmem
    exact absurd hrmem (List.not_mem_nil r)
  | cons r0 rest =>
    rw [hS] at hperm hsorted
    have hr2 : ∀ r ∈ r0 :: rest, r.1 ≤ r.2 := fun r hm => hr r (hperm.mem_iff.mp hm)
    have hgap := sweepLoop_gap rest r0 hsorted
    refine ⟨?_, ?_, ?_⟩
    · exact sweepLoop_start_end rest r0 (hr2 r0 (List.mem_cons_self _ _))
        (fun r hm => hr2 r (List.mem_cons_of_mem _ hm))
    · refine hgap.imp ?_
      intro r1 r2 hlt t hC
      obtain ⟨⟨_, ha⟩, hb, _⟩ := hC
      have hlt2 : r1.2 < r2.1 := hlt
      have ha2 : t ≤ r1.2 := ha
      have hb2 : r2.1 ≤ t := hb
      omega
    · intro t ⟨r, hrmem, hrin⟩
      show (sweepLoop r0 rest).countP (fun r => decide (inInterval t r)) = 1
      have hmem2 : r ∈ r0 :: rest := hperm.mem_iff.mpr hrmem
      have hcov : ∃ out ∈ sweepLoop r0 rest, inInterval t out := by
        apply sweepLoop_cover rest r0 hsorted t
        rcases List.mem_cons.mp hmem2 with heq | hm
        · exact Or.inl (heq ▸ hrin)
        · exact Or.inr ⟨r, hm, hrin⟩
      obtain ⟨out, ho, hoin⟩ := hcov
      have hpos : 0 < (sweepLoop r0 rest).countP (fun r => decide (inInterval t r)) :=
        List.countP_pos_iff.mpr ⟨out, ho, by simpa using hoin⟩
      have hle := countP_le_one_of_gap t (sweepLoop r0 rest) hgap
      omega

/-- C3: for every non-negative buffer and every group of exclusion
timestamps, each output interval of the consolidation satisfies
`start ≤ end`, the output intervals are pairwise disjoint, and every input
timestamp lies within exactly one output interval. -/
theorem consolidate_partition (b : ℤ) (ts : List ℤ) (hb : 0 ≤ b) :
    (∀ out ∈ consolidateGroup b ts, out.1 ≤ out.2) ∧
    (consolidateGroup b ts).Pairwise
      (fun r1 r2 => ∀ t : ℤ, ¬(inInterval t r1 ∧ inInterval t r2)) ∧
    (∀ t ∈ ts, (consolidateGroup b ts).countP (fun r => decide (inInterval t r)) = 1) := by
  have hr : ∀ r ∈ buffered b ts, r.1 ≤ r.2 := by
    intro r hm
    unfold buffered at hm
    obtain ⟨t, _, rfl⟩ := List.mem_map.mp hm
    simp only
    omega
  obtain ⟨hse, hdisj, hcount⟩ := mergeGroup_partition (buffered b ts) hr
  refine ⟨hse, hdisj, fun t ht => ?_⟩
  apply hcount
  refine ⟨(t - b, t + b), ?_, ?_⟩
  · exact List.mem_map.mpr ⟨t, ht, rfl⟩
  · constructor <;> simp <;> omega

theorem consolidate_partition_witness :
    (∀ out ∈ consolidateGroup 1 [0, 10], out.1 ≤ out.2) ∧
    (consolidateGroup 1 [0, 10]).Pairwise
      (fun r1 r2 => ∀ t : ℤ, ¬(inInterval t r1 ∧ inInterval t r2)) ∧
    (∀ t ∈ [(0:ℤ), 10],
      (consolidateGroup 1 [0, 10]).countP (fun r => decide (inInterval t r)) = 1) :=
  consolidate_partition 1 [0, 10] (by decide)

/-- Group keys: the two identifier tokens extracted from the series name
by `unwrap_name` plus the exclusion reason. -/
abbrev GroupKey := String × String × String

/-- The buffered ranges accumulated for one group key, in insertion order
(the `groups.entry(..).or_default().push(..)` loop of
`export_exclusions`). -/
def groupRanges (exclusions : List (GroupKey × (ℤ × ℤ))) (k : GroupKey) :
    List (ℤ × ℤ) :=
  (exclusions.filter (fun it => decide (it.1 = k))).map (fun it => it.2)

/-- The record list produced by the merge phase of `export_exclusions`
when the `HashMap` iteration visits the group keys in the order `order`:
per visited group, sort, sweep, and emit one record per merged interval,
all carrying the single captured generation time `now`.  The iteration
order of `std::collections::HashMap` is not a function of the input — it
depends on a per-process random hash seed — so it appears here as an
explicit parameter ranging over the possible orders of the key set. -/
def exportMerged (order : List GroupKey) (exclusions : List (GroupKey × (ℤ × ℤ)))
    (now : ℤ) : List (GroupKey × ℤ × ℤ × ℤ) :=
  (order.map (fun k =>
    (mergeGroup (groupRanges exclusions k)).map (fun r => (k, r.1, r.2, now)))).flatten

unseal List.mergeSort in
/-- C5 (refuted on the code): the emitted record sequence depends on the
`HashMap` iteration order over group keys, which the input does not
determine; with one exclusion event in each of two distinct groups, the
two possible iteration orders over the same key set produce differently
ordered outputs. -/
theorem export_order_dependent :
    exportMerged [("A", "s", "r"), ("B", "s", "r")]
        [(("A", "s", "r"), (0, 1)), (("B", "s", "r"), (5, 6))] 0
      ≠ exportMerged [("B", "s", "r"), ("A", "s", "r")]
        [(("A", "s", "r"), (0, 1)), (("B", "s", "r"), (5, 6))] 0 := by
  decide

end MDC
